import Mathlib

/-!
Verification of the temporal-index and bot-scheduler core of the protocol
repository.  The definitions below are shallow embeddings of the TypeScript
and JavaScript sources:

* BlockHistory, PriceHistory, BlockFinder and computeTWAP come from the sdk
  utility module (BlockHistory / BlockFinder / computeTWAP functions).
* The retrying polling loop comes from the liquidator entry point
  (packages/liquidator/index.js, run and nodeCallback).
* The proposer / disputer per-target handling comes from
  packages/optimistic-oracle/src/proposer.js.

Ledger timestamps and block numbers are JS numbers holding non-negative
integers and are modelled as Nat; prices are bn.js big integers and are
modelled as Int.  Third-party library calls (lodash sortedIndexBy and clamp,
the async-retry package, bn.js arithmetic) are modelled by their documented
semantics, which the comments next to each definition spell out.
-/

namespace Protocol

/-- A ledger block: a block number and its timestamp, as cached by
BlockHistory and BlockFinder. -/
structure Block where
  number : Nat
  timestamp : Nat
deriving Repr, DecidableEq

/-- The lodash baseSortedIndexBy loop body: while low is below high, probe
the middle index, move low past it when the probed key is below the searched
value and otherwise move high down to it.  The fuel argument makes the
recursion structural; every iteration shrinks high - low by at least one, so
any fuel of at least high - low reproduces the loop exactly (when low is not
below high both the loop and the fuel-exhausted case return low). -/
def lodashSortedIndexGo (arr : List Nat) (value : Nat) : Nat → Nat → Nat → Nat
  | 0, low, _ => low
  | fuel + 1, low, high =>
    if low < high then
      if arr.getD ((low + high) / 2) 0 < value then
        lodashSortedIndexGo arr value fuel ((low + high) / 2 + 1) high
      else
        lodashSortedIndexGo arr value fuel low ((low + high) / 2)
    else low

/-- lodash sortedIndexBy: binary search returning the lowest index at which
the value could be inserted while keeping the array sorted.  The array
argument is the list of keys (the iteratee applied to each element). -/
def lodashSortedIndex (arr : List Nat) (value : Nat) (low high : Nat) : Nat :=
  lodashSortedIndexGo arr value (high - low) low high

/-- lodash clamp(x, lo, hi): first take the minimum with the upper bound,
then the maximum with the lower bound. -/
def lodashClamp (x lo hi : Int) : Int := max lo (min x hi)

namespace BlockHistory

/-- BlockHistory insert: splice the block into the cache at the index
returned by lodash sortedIndexBy on the timestamp key. -/
def insert (blocks : List Block) (b : Block) : List Block :=
  let index := lodashSortedIndex (blocks.map Block.timestamp) b.timestamp 0 blocks.length
  blocks.take index ++ b :: blocks.drop index

/-- JS array indexing where a negative or out-of-range index yields
undefined, modelled as none. -/
def jsGet (blocks : List Block) (i : Int) : Option Block :=
  if 0 ≤ i then blocks.get? i.toNat else none

/-- BlockHistory getClosestBefore: binary-search the timestamp; on an exact
match return that entry, otherwise the entry one position earlier (undefined
when the index is 0, as blocks[-1] in JS). -/
def getClosestBefore (blocks : List Block) (timestamp : Nat) : Option Block :=
  let index := lodashSortedIndex (blocks.map Block.timestamp) timestamp 0 blocks.length
  match blocks.get? index with
  | some b => if b.timestamp = timestamp then some b else jsGet blocks ((index : Int) - 1)
  | none => jsGet blocks ((index : Int) - 1)

/-- The insertion phase of BlockHistory update (source lines 83 to 88): the
fetched argument stands for the array produced by the parallel getBlock
calls over the estimated height range; every fetched block whose timestamp
is at least now minus lookback is inserted into the cache.  The JS guard is
a comparison against the possibly negative value now - lookback; for the
non-negative timestamps modelled here the truncated Nat subtraction agrees
with it.  The earliest-height estimate uses the external
averageBlockTimeSeconds collaborator and only decides which blocks get
fetched, not which fetched blocks pass this guard. -/
def update (blocks : List Block) (fetched : List Block) (lookback now : Nat) : List Block :=
  fetched.foldl (fun acc b => if now - lookback ≤ b.timestamp then insert acc b else acc) blocks

end BlockHistory

/-- Number.MAX_SAFE_INTEGER, used by computeTWAP as the far-future sentinel
timestamp. -/
def MAX_SAFE_JS_INT : Nat := 9007199254740991

/-- A TWAP price event: a timestamp paired with a bn.js price or null. -/
abbrev TwapEvent := Nat × Option Int

/-- The for-loop of computeTWAP.  State: the previous event fields lastTime
and lastPrice (null before the first event), the running priceSum and
timeSum.  Each iteration first accumulates the previous price over the
window clipped to the query range, guarded by the JS truthiness test
lastTime and lastPrice: a lastTime of 0 is falsy in JS, so that guard also
fails when the previous timestamp is 0.  It then breaks when the current
event starts after endTime, and otherwise shifts the current event into
lastTime / lastPrice. -/
def twapLoop (startTime endTime : Nat) :
    List TwapEvent → Option Nat → Option Int → Int → Nat → Int × Nat
  | [], _, _, priceSum, timeSum => (priceSum, timeSum)
  | (t, pr) :: rest, lastTime, lastPrice, priceSum, timeSum =>
    let acc : Int × Nat :=
      match lastTime, lastPrice with
      | some lt, some lp =>
        if lt ≠ 0 then
          let startWindow := max lt startTime
          let endWindow := min t endTime
          let windowLength := endWindow - startWindow
          (priceSum + lp * (windowLength : Int), timeSum + windowLength)
      else (priceSum, timeSum)
      | _, _ => (priceSum, timeSum)
    if endTime < t then acc
    else twapLoop startTime endTime rest (some t) pr acc.1 acc.2

/-- computeTWAP, including its effect on the caller-supplied events array:
the JS function first pushes a far-future sentinel event onto the events
array it was given (mutating it in place), then runs the accumulation loop,
and finally divides the price sum by the time sum unless the time sum is
zero.  The first component is the returned price (null as none), the second
component is the events array as the caller observes it after the call.
bn.js divn truncates toward zero, hence Int.tdiv. -/
def computeTWAPFull (events : List TwapEvent) (startTime endTime : Nat)
    (startingPriceSum : Int) : Option Int × List TwapEvent :=
  let pushed := events ++ [(MAX_SAFE_JS_INT, none)]
  let res := twapLoop startTime endTime pushed none none startingPriceSum 0
  (if res.2 = 0 then none else some (Int.tdiv res.1 (res.2 : Int)), pushed)

/-- The return value of computeTWAP. -/
def computeTWAP (events : List TwapEvent) (startTime endTime : Nat)
    (startingPriceSum : Int) : Option Int :=
  (computeTWAPFull events startTime endTime startingPriceSum).1

/-- The events array as left behind by computeTWAP. -/
def computeTWAPEvents (events : List TwapEvent) (startTime endTime : Nat)
    (startingPriceSum : Int) : List TwapEvent :=
  (computeTWAPFull events startTime endTime startingPriceSum).2

/-- Outcome of a BlockFinder query.  ok is a normal return; assertFail is a
failed assert call (a thrown defect); jsError is a JS runtime error such as
reading a field of undefined; outOfFuel marks that the modelled fuel ran out
before the source loop or recursion finished. -/
inductive FBResult where
  | ok (b : Block)
  | assertFail
  | jsError
  | outOfFuel
deriving Repr, DecidableEq

/-- The external collaborators of BlockFinder.  chainTs gives the timestamp
of every ledger block number (what requestBlock returns); latestNumber is
the number of the current latest block; estimateInc models the external
estimateBlocksElapsed(seconds, 1.1) helper from the common package (not part
of these sources); estimator models the floating-point interpolation
estimate startBlock.number + round(blockPercentile * totalBlockDistance)
inside findBlock - the clamp applied to it makes every result below
independent of its value, so it is kept abstract rather than fixing a
rounding mode for JS floats. -/
structure FinderEnv where
  chainTs : Nat → Nat
  latestNumber : Nat
  estimateInc : Nat → Nat
  estimator : Block → Block → Nat → Int

namespace BlockFinder

/-- BlockFinder getBlock(number): binary-search the number-sorted cache;
return the cached entry when its number matches, otherwise fetch the block
and splice it in at the insertion index.  Returns the updated cache and the
block handed back to the caller. -/
def getBlock (env : FinderEnv) (blocks : List Block) (number : Nat) : List Block × Block :=
  let index := lodashSortedIndex (blocks.map Block.number) number 0 blocks.length
  match blocks.get? index with
  | some b =>
    if b.number = number then (blocks, b)
    else
      let nb : Block := ⟨number, env.chainTs number⟩
      (blocks.take index ++ nb :: blocks.drop index, nb)
  | none =>
    let nb : Block := ⟨number, env.chainTs number⟩
    (blocks.take index ++ nb :: blocks.drop index, nb)

/-- BlockFinder getLatestBlock: fetch the latest block, splice it into the
cache when no cached entry has its number, and return the entry now sitting
at the insertion index. -/
def getLatestBlock (env : FinderEnv) (blocks : List Block) : List Block × Option Block :=
  let block : Block := ⟨env.latestNumber, env.chainTs env.latestNumber⟩
  let index := lodashSortedIndex (blocks.map Block.number) block.number 0 blocks.length
  let blocks2 :=
    if (blocks.get? index).map Block.number ≠ some block.number then
      blocks.take index ++ block :: blocks.drop index
    else blocks
  (blocks2, blocks2.get? index)

/-- BlockFinder findBlock: the interpolation search.  The start block is an
Option because getBlockForTimestamp passes blocks[index - 1], which is
undefined when index is 0; the source survives that exactly when the end
block already matches the timestamp (the first check), and otherwise
dereferences undefined, modelled as jsError.  Each step estimates a block
number, clamps it strictly inside the bracket, fetches that block through
the cache, and recurses on the narrowed bracket.  The fuel argument bounds
the recursion depth; the termination theorem below shows a fuel of the
bracket width is always enough. -/
def findBlock (env : FinderEnv) :
    Nat → List Block → Option Block → Block → Nat → FBResult
  | 0, _, _, _, _ => .outOfFuel
  | fuel + 1, blocks, startOpt, endBlock, timestamp =>
    if endBlock.timestamp = timestamp then .ok endBlock
    else
      match startOpt with
      | none => .jsError
      | some startBlock =>
        if endBlock.number = startBlock.number + 1 then .ok startBlock
        else if endBlock.number = startBlock.number then .assertFail
        else if ¬ (startBlock.timestamp < timestamp ∧ timestamp < endBlock.timestamp) then
          .assertFail
        else
          let est := env.estimator startBlock endBlock timestamp
          let clamped :=
            (lodashClamp est ((startBlock.number : Int) + 1) ((endBlock.number : Int) - 1)).toNat
          let fetched := getBlock env blocks clamped
          if fetched.2.timestamp < timestamp then
            findBlock env fuel fetched.1 (some fetched.2) endBlock timestamp
          else
            findBlock env fuel fetched.1 startOpt fetched.2 timestamp

/-- Outcome of the backward search loop in getBlockForTimestamp, together
with the list of probed block numbers in order. -/
inductive BWOut where
  | ok (blocks : List Block) (probes : List Nat)
  | genesisFail (probes : List Nat)
  | outOfFuel (probes : List Nat)
deriving Repr

/-- The probe list of a backward search outcome. -/
def BWOut.probes : BWOut → List Nat
  | .ok _ probes => probes
  | .genesisFail probes => probes
  | .outOfFuel probes => probes

/-- The backward search loop of getBlockForTimestamp: for multiplier
1, 2, 3, ... probe the block initialNumber - multiplier * inc (the JS
Math.max(0, ...) is the truncated Nat subtraction), stop as soon as the
probed block is at or before the timestamp, and fail the assert when block 0
has been probed without finding one (the timestamp predates the ledger).
The fuel bounds the number of iterations of the unbounded JS for-loop. -/
def backwardLoop (env : FinderEnv) (initialNumber inc timestamp : Nat) :
    Nat → Nat → List Block → BWOut
  | 0, _, _ => .outOfFuel []
  | fuel + 1, multiplier, blocks =>
    let blockNumber := initialNumber - multiplier * inc
    let fetched := getBlock env blocks blockNumber
    if fetched.2.timestamp ≤ timestamp then .ok fetched.1 [blockNumber]
    else if blockNumber = 0 then .genesisFail [blockNumber]
    else
      match backwardLoop env initialNumber inc timestamp fuel (multiplier + 1) fetched.1 with
      | .ok bs probes => .ok bs (blockNumber :: probes)
      | .genesisFail probes => .genesisFail (blockNumber :: probes)
      | .outOfFuel probes => .outOfFuel (blockNumber :: probes)

/-- Modelled from the spec: the claimed variant of the backward search in
which the search distance doubles on each miss instead of growing by a
constant increment.  Produces the probe sequence that behaviour would
generate, for comparison with the probe sequence of the source loop. -/
def doublingProbes (initialNumber timestamp : Nat) (chainTs : Nat → Nat) :
    Nat → Nat → List Nat
  | 0, _ => []
  | fuel + 1, distance =>
    let blockNumber := initialNumber - distance
    if chainTs blockNumber ≤ timestamp then [blockNumber]
    else if blockNumber = 0 then [blockNumber]
    else blockNumber :: doublingProbes initialNumber timestamp chainTs fuel (distance * 2)

/-- The final step of getBlockForTimestamp: binary-search the cache by
timestamp and hand blocks[index - 1] and blocks[index] to findBlock.  An
index of 0 makes the start argument undefined, and a missing end entry
makes the source dereference undefined inside findBlock immediately. -/
def finalStep (env : FinderEnv) (fuel : Nat) (blocks : List Block) (timestamp : Nat) : FBResult :=
  let index := lodashSortedIndex (blocks.map Block.timestamp) timestamp 0 blocks.length
  match blocks.get? index with
  | none => .jsError
  | some endBlock =>
    let startOpt := if index = 0 then none else blocks.get? (index - 1)
    findBlock env fuel blocks startOpt endBlock timestamp

/-- BlockFinder getBlockForTimestamp.  Step 1: when the cache is empty or
its newest entry is older than the timestamp, fetch the latest block and
return it if the timestamp is at or past it.  Step 2: when the earliest
cached entry is newer than the timestamp, run the backward search with
increment max(estimateBlocksElapsed(gap, 1.1), 1); an assert failure inside
it aborts the query.  Step 3: interpolation-search the bracket around the
timestamp. -/
def getBlockForTimestamp (env : FinderEnv) (fuel : Nat) (blocks : List Block)
    (timestamp : Nat) : FBResult :=
  let step1 : List Block × Option FBResult :=
    if blocks.isEmpty ∨ (blocks.getLast?.map Block.timestamp).any (fun t => t < timestamp) then
      match getLatestBlock env blocks with
      | (blocks2, some block) =>
        if block.timestamp ≤ timestamp then (blocks2, some (.ok block)) else (blocks2, none)
      | (blocks2, none) => (blocks2, some .jsError)
    else (blocks, none)
  match step1 with
  | (_, some r) => r
  | (blocks1, none) =>
    match blocks1 with
    | [] => .jsError
    | b0 :: _ =>
      if timestamp < b0.timestamp then
        let inc := max (env.estimateInc (b0.timestamp - timestamp)) 1
        match backwardLoop env b0.number inc timestamp fuel 1 blocks1 with
        | .ok bs _ => finalStep env fuel bs timestamp
        | .genesisFail _ => .assertFail
        | .outOfFuel _ => .outOfFuel
      else finalStep env fuel blocks1 timestamp

end BlockFinder

/-! ## The liquidator entry point: retrying scheduler and process exit

Models of packages/liquidator/index.js.  A cycle body (the async closure
handed to the retry wrapper: liquidator update, liquidatePositions unless
expired, withdrawRewards) is abstracted as a function from the attempt index
to an Except outcome, where an error stands for any thrown exception.
Errors are Nat codes; only their presence matters. -/

/-- Outcome of one JS async call: a normal return or a thrown error,
identified by a Nat code. -/
inductive JsOutcome where
  | ok
  | thrown (e : Nat)
deriving Repr, DecidableEq

/-- Result of one retry-wrapped cycle: the final outcome, the total number
of attempts made, and the delays slept between attempts. -/
structure RetryResult where
  outcome : JsOutcome
  attempts : Nat
  delays : List Nat
deriving Repr, DecidableEq

/-- The async-retry package as configured at the retry call site of the run
loop: the site passes retries, minTimeout and randomize false, and leaves
the node-retry factor option at its default of 2 (and maxTimeout at its
default, unbounded).  node-retry therefore precomputes the timeout before
the retry following failed attempt k as minTimeout * 2 ^ k: the delay
doubles on every retry.  The body is attempted once and then retried up to
the given number of times, and the last error is rethrown once retries are
exhausted.  remaining counts the retries still allowed, attemptIdx the
attempts already made; the delays field lists the sleeps performed before
the attempts made so far. -/
def asyncRetryGo (body : Nat → JsOutcome) (delayMs : Nat) :
    Nat → Nat → RetryResult
  | 0, attemptIdx =>
    ⟨body attemptIdx, attemptIdx + 1, (List.range attemptIdx).map (fun k => delayMs * 2 ^ k)⟩
  | remaining + 1, attemptIdx =>
    match body attemptIdx with
    | .ok => ⟨.ok, attemptIdx + 1, (List.range attemptIdx).map (fun k => delayMs * 2 ^ k)⟩
    | .thrown _ => asyncRetryGo body delayMs remaining (attemptIdx + 1)

/-- retry(body, retries, minTimeout) as used by the run loop. -/
def asyncRetry (body : Nat → JsOutcome) (retries delayMs : Nat) : RetryResult :=
  asyncRetryGo body delayMs retries 0

/-- Observable trace of the run execution loop. -/
structure RunTrace where
  cyclesStarted : Nat
  attemptsPerCycle : List Nat
  sleeps : List Nat
  waitedForLogger : Bool
  outcome : Option JsOutcome
deriving Repr, DecidableEq

/-- The indefinite execution loop of run: each iteration wraps one polling
cycle in the bounded retry; an error surviving the retry is rethrown out of
run (outcome error).  On success, a pollingDelay of 0 waits for pending log
delivery and breaks out of the loop (outcome ok); otherwise the loop sleeps
pollingDelay seconds and iterates.  cycles gives the outcome of cycle i at
attempt j; fuel bounds the number of iterations observed, and an outcome of
none means the loop was still running after that many iterations. -/
def runLoop (cycles : Nat → Nat → JsOutcome) (retries delayMs pollingDelay : Nat) :
    Nat → Nat → RunTrace
  | 0, _ => ⟨0, [], [], false, none⟩
  | fuel + 1, cycleIdx =>
    let r := asyncRetry (cycles cycleIdx) retries delayMs
    match r.outcome with
    | .thrown e => ⟨1, [r.attempts], [], false, some (.thrown e)⟩
    | .ok =>
      if pollingDelay = 0 then
        ⟨1, [r.attempts], [], true, some .ok⟩
      else
        let rest := runLoop cycles retries delayMs pollingDelay fuel (cycleIdx + 1)
        ⟨rest.cyclesStarted + 1, r.attempts :: rest.attemptsPerCycle,
          pollingDelay :: rest.sleeps, rest.waitedForLogger, rest.outcome⟩

/-- nodeCallback: an error exits the process with status 1, a normal
completion exits with status 0.  Poll forwards the error thrown out of run
to this callback. -/
def nodeCallbackExit (outcome : JsOutcome) : Nat :=
  match outcome with
  | .thrown _ => 1
  | .ok => 0

/-! ## The optimistic-oracle proposer: per-target handling

Models of OptimisticOracleProposer sendProposals / sendDisputes.  The
external collaborators are collected in an environment: feedExists says
whether createReferencePriceFeedForFinancialContract returns a feed for an
identifier (it is deterministic per identifier, so the priceFeedCache is
transparent here); histPrice is getHistoricalPrice, none modelling a lookup
that throws; ignored is the outcome of the shouldIgnorePriceRequest check;
txSucceeds is whether runTransaction succeeds; deviationOutside is the
isDeviationOutsideErrorMargin helper from the templates library applied to
the proposed (observed) and historical (expected) prices. -/

/-- A price request as seen by the proposer. -/
structure PriceRequest where
  identifier : Nat
  timestamp : Nat
  proposedPrice : Int
deriving Repr, DecidableEq

/-- External collaborators of the proposer. -/
structure ProposerEnv where
  feedExists : Nat → Bool
  histPrice : Nat → Nat → Option Int
  ignored : PriceRequest → Bool
  txSucceeds : PriceRequest → Bool
  deviationOutside : Int → Int → Bool

/-- What the proposer did with one target in this cycle. -/
inductive TargetAction where
  | skippedIgnored
  | skippedNoFeed
  | skippedNoPrice
  | skippedWithinMargin
  | txFailed
  | txSent (price : Int)
deriving Repr, DecidableEq

/-- The body of sendProposal for one price request: a missing feed is
logged and skipped; a historical price lookup that throws is caught, logged
and skipped; otherwise the proposal transaction is submitted, and a failure
there is caught, logged and dropped for the cycle.  Every path returns
normally, so the calling loop always continues. -/
def sendProposalOne (env : ProposerEnv) (r : PriceRequest) : TargetAction :=
  if env.feedExists r.identifier = false then .skippedNoFeed
  else
    match env.histPrice r.identifier r.timestamp with
    | none => .skippedNoPrice
    | some p => if env.txSucceeds r then .txSent p else .txFailed

/-- The body of sendDispute for one price request: as for proposals, except
that after a successful price lookup the dispute is only submitted when the
proposed price deviates from the historical price beyond the allowed
margin. -/
def sendDisputeOne (env : ProposerEnv) (r : PriceRequest) : TargetAction :=
  if env.feedExists r.identifier = false then .skippedNoFeed
  else
    match env.histPrice r.identifier r.timestamp with
    | none => .skippedNoPrice
    | some dp =>
      if env.deviationOutside r.proposedPrice dp then
        if env.txSucceeds r then .txSent dp else .txFailed
      else .skippedWithinMargin

/-- sendProposals: iterate over the unproposed requests, skipping ignored
ones, and record what happened to each target. -/
def sendProposals (env : ProposerEnv) (reqs : List PriceRequest) :
    List (PriceRequest × TargetAction) :=
  reqs.map (fun r => (r, if env.ignored r then .skippedIgnored else sendProposalOne env r))

/-- sendDisputes: iterate over the undisputed proposals, skipping ignored
ones, and record what happened to each target. -/
def sendDisputes (env : ProposerEnv) (reqs : List PriceRequest) :
    List (PriceRequest × TargetAction) :=
  reqs.map (fun r => (r, if env.ignored r then .skippedIgnored else sendDisputeOne env r))

/-- The requests for which a transaction was actually submitted. -/
def sentTxs (results : List (PriceRequest × TargetAction)) : List PriceRequest :=
  results.filterMap (fun ra =>
    match ra.2 with
    | .txSent _ => some ra.1
    | _ => none)

/-! ## Lemmas about the lodash binary search -/

/-- In a list sorted by the non-strict order, getD with default 0 is
monotone over in-range indices. -/
theorem pairwise_getD_mono (arr : List Nat) (hs : arr.Pairwise (· ≤ ·))
    {i j : Nat} (hij : i ≤ j) (hj : j < arr.length) :
    arr.getD i 0 ≤ arr.getD j 0 := by
  rcases Nat.lt_or_ge i j with h | h
  · rw [List.getD_eq_getElem arr 0 (Nat.lt_trans h hj), List.getD_eq_getElem arr 0 hj]
    exact List.pairwise_iff_getElem.mp hs i j (Nat.lt_trans h hj) hj h
  · have : i = j := Nat.le_antisymm hij h
    subst this
    exact Nat.le_refl _

/-- Correctness of the lodash binary search loop on a sorted key array:
starting from a bracket whose outside is already classified, the returned
index lies inside the bracket, every key before it is strictly below the
searched value and every key from it on is at least the searched value. -/
theorem sortedIndexGo_bracket (arr : List Nat) (v : Nat) (hs : arr.Pairwise (· ≤ ·)) :
    ∀ fuel low high, high - low ≤ fuel → high ≤ arr.length → low ≤ high →
    (∀ j, j < low → arr.getD j 0 < v) →
    (∀ j, high ≤ j → j < arr.length → v ≤ arr.getD j 0) →
    low ≤ lodashSortedIndexGo arr v fuel low high ∧
    lodashSortedIndexGo arr v fuel low high ≤ high ∧
    (∀ j, j < lodashSortedIndexGo arr v fuel low high → arr.getD j 0 < v) ∧
    (∀ j, lodashSortedIndexGo arr v fuel low high ≤ j → j < arr.length →
      v ≤ arr.getD j 0) := by
  intro fuel
  induction fuel with
  | zero =>
    intro low high hfuel _hlen hlh hlo hhi
    have : low = high := by omega
    subst this
    exact ⟨Nat.le_refl _, Nat.le_refl _, hlo, hhi⟩
  | succ fuel ih =>
    intro low high hfuel hlen hlh hlo hhi
    rw [lodashSortedIndexGo]
    by_cases hcmp : low < high
    · simp only [if_pos hcmp]
      have hmidlo : low ≤ (low + high) / 2 := by omega
      have hmidhi : (low + high) / 2 < high := by omega
      have hmidlen : (low + high) / 2 < arr.length := Nat.lt_of_lt_of_le hmidhi hlen
      by_cases hprobe : arr.getD ((low + high) / 2) 0 < v
      · simp only [if_pos hprobe]
        refine (ih ((low + high) / 2 + 1) high (by omega) hlen (by omega) ?_ hhi).imp
          (fun h => by omega) (fun h => h)
        intro j hj
        exact Nat.lt_of_le_of_lt (pairwise_getD_mono arr hs (by omega) hmidlen) hprobe
      · simp only [if_neg hprobe]
        refine (ih low ((low + high) / 2) (by omega) (by omega) (by omega) hlo ?_).imp
          (fun h => h) (fun h => ⟨by omega, h.2⟩)
        intro j hj hjlen
        exact Nat.le_trans (Nat.le_of_not_lt hprobe) (pairwise_getD_mono arr hs hj hjlen)
    · simp only [if_neg hcmp]
      have : low = high := by omega
      subst this
      exact ⟨Nat.le_refl _, Nat.le_refl _, hlo, hhi⟩

/-- The bracket property of lodash sortedIndexBy over the whole array. -/
theorem sortedIndex_bracket (arr : List Nat) (v : Nat) (hs : arr.Pairwise (· ≤ ·)) :
    lodashSortedIndex arr v 0 arr.length ≤ arr.length ∧
    (∀ j, j < lodashSortedIndex arr v 0 arr.length → arr.getD j 0 < v) ∧
    (∀ j, lodashSortedIndex arr v 0 arr.length ≤ j → j < arr.length →
      v ≤ arr.getD j 0) := by
  have h := sortedIndexGo_bracket arr v hs (arr.length - 0) 0 arr.length
    (Nat.le_refl _) (Nat.le_refl _) (Nat.zero_le _)
    (fun j hj => absurd hj (Nat.not_lt_zero j))
    (fun j hj hjlen => absurd hjlen (Nat.not_lt_of_ge hj))
  exact ⟨h.2.1, h.2.2.1, h.2.2.2⟩

/-! ## Lemmas about BlockHistory insert and update -/

/-- Splicing at any index is, as a multiset operation, just adding the
block. -/
theorem insert_perm (blocks : List Block) (b : Block) :
    (BlockHistory.insert blocks b).Perm (b :: blocks) := by
  unfold BlockHistory.insert
  have h :
      (blocks.take (lodashSortedIndex (blocks.map Block.timestamp) b.timestamp 0 blocks.length)
        ++ b ::
          blocks.drop
            (lodashSortedIndex (blocks.map Block.timestamp) b.timestamp 0 blocks.length)).Perm
      (b :: (blocks.take
          (lodashSortedIndex (blocks.map Block.timestamp) b.timestamp 0 blocks.length)
        ++ blocks.drop
          (lodashSortedIndex (blocks.map Block.timestamp) b.timestamp 0 blocks.length))) :=
    List.perm_middle
  simpa [List.take_append_drop] using h

/-- Inserting into a timestamp-sorted cache at the lodash index keeps the
cache timestamp-sorted. -/
theorem insert_sorted (blocks : List Block) (b : Block)
    (h : blocks.Pairwise (fun x y => x.timestamp ≤ y.timestamp)) :
    (BlockHistory.insert blocks b).Pairwise (fun x y => x.timestamp ≤ y.timestamp) := by
  have hs : (blocks.map Block.timestamp).Pairwise (· ≤ ·) := List.pairwise_map.mpr h
  have hlenm : (blocks.map Block.timestamp).length = blocks.length := List.length_map _ _
  have harr : ∀ j, (hj : j < blocks.length) →
      (blocks.map Block.timestamp).getD j 0 = (blocks[j]).timestamp := by
    intro j hj
    rw [List.getD_eq_getElem (blocks.map Block.timestamp) 0 (by omega), List.getElem_map]
  obtain ⟨hle, hlt, hge⟩ := sortedIndex_bracket (blocks.map Block.timestamp) b.timestamp hs
  rw [hlenm] at hle hlt hge
  set i := lodashSortedIndex (blocks.map Block.timestamp) b.timestamp 0 blocks.length with hi
  unfold BlockHistory.insert
  rw [← hi]
  rw [List.pairwise_append]
  refine ⟨h.sublist (List.take_sublist i blocks), ?_, ?_⟩
  · rw [List.pairwise_cons]
    constructor
    · intro y hy
      obtain ⟨k, hk, rfl⟩ := List.mem_iff_getElem.mp hy
      rw [List.getElem_drop]
      have hik : i + k < blocks.length := by
        have := List.length_drop i blocks
        omega
      have := hge (i + k) (Nat.le_add_right i k) hik
      rw [harr (i + k) hik] at this
      exact this
    · exact h.sublist (List.drop_sublist i blocks)
  · intro x hx y hy
    obtain ⟨j, hj, rfl⟩ := List.mem_iff_getElem.mp hx
    have hjlen : j < blocks.length := by
      have := List.length_take i blocks
      omega
    have hji : j < i := by
      have := List.length_take i blocks
      omega
    rw [List.getElem_take]
    have hxb : (blocks[j]).timestamp ≤ b.timestamp := by
      have := hlt j hji
      rw [harr j hjlen] at this
      omega
    rcases List.mem_cons.mp hy with rfl | hy2
    · exact hxb
    · obtain ⟨k, hk, rfl⟩ := List.mem_iff_getElem.mp hy2
      rw [List.getElem_drop]
      have hik : i + k < blocks.length := by
        have := List.length_drop i blocks
        omega
      have hby : b.timestamp ≤ (blocks[i + k]).timestamp := by
        have := hge (i + k) (Nat.le_add_right i k) hik
        rw [harr (i + k) hik] at this
        exact this
      omega

/-- Multiset content of the update insertion phase: the cache gains exactly
the fetched blocks passing the lookback guard. -/
theorem update_perm (fetched : List Block) (blocks : List Block) (lookback now : Nat) :
    (BlockHistory.update blocks fetched lookback now).Perm
      (blocks ++ fetched.filter (fun b => now - lookback ≤ b.timestamp)) := by
  induction fetched generalizing blocks with
  | nil => simp [BlockHistory.update]
  | cons f rest ih =>
    unfold BlockHistory.update
    rw [List.foldl_cons]
    by_cases hf : now - lookback ≤ f.timestamp
    · simp only [if_pos hf, List.filter_cons, decide_eq_true hf]
      have h1 : (BlockHistory.update (BlockHistory.insert blocks f) rest lookback now).Perm
          ((BlockHistory.insert blocks f) ++ rest.filter (fun b => now - lookback ≤ b.timestamp)) :=
        ih (BlockHistory.insert blocks f)
      refine (h1.trans ?_)
      have h2 : (BlockHistory.insert blocks f).Perm (f :: blocks) := insert_perm blocks f
      refine (h2.append_right _).trans ?_
      exact List.perm_middle.symm
    · simp only [if_neg hf, List.filter_cons]
      have : (decide (now - lookback ≤ f.timestamp)) = false := by
        simpa using hf
      rw [this]
      exact ih blocks

/-- Sortedness is preserved by the update insertion phase. -/
theorem update_sorted (fetched : List Block) (blocks : List Block) (lookback now : Nat)
    (h : blocks.Pairwise (fun x y => x.timestamp ≤ y.timestamp)) :
    (BlockHistory.update blocks fetched lookback now).Pairwise
      (fun x y => x.timestamp ≤ y.timestamp) := by
  induction fetched generalizing blocks with
  | nil => simpa [BlockHistory.update] using h
  | cons f rest ih =>
    unfold BlockHistory.update
    rw [List.foldl_cons]
    by_cases hf : now - lookback ≤ f.timestamp
    · simp only [if_pos hf]
      exact ih (BlockHistory.insert blocks f) (insert_sorted blocks f h)
    · simp only [if_neg hf]
      exact ih blocks h

/-! ## Claim C10: the block cache stays sorted -/

/-- C10: starting from a cache sorted by non-decreasing timestamp, every
BlockHistory operation keeps it sorted: insert places the block at its
lodash sorted position, and the update insertion phase only adds blocks
through insert.  The remaining operations read the cache without changing
it. -/
theorem C10_cache_stays_sorted :
    (∀ (blocks : List Block) (b : Block),
      blocks.Pairwise (fun x y => x.timestamp ≤ y.timestamp) →
      (BlockHistory.insert blocks b).Pairwise (fun x y => x.timestamp ≤ y.timestamp))
    ∧ (∀ (blocks fetched : List Block) (lookback now : Nat),
      blocks.Pairwise (fun x y => x.timestamp ≤ y.timestamp) →
      (BlockHistory.update blocks fetched lookback now).Pairwise
        (fun x y => x.timestamp ≤ y.timestamp)) :=
  ⟨insert_sorted, fun blocks fetched lookback now h => update_sorted fetched blocks lookback now h⟩

/-- Witness for C10 at a concrete sorted cache. -/
theorem C10_cache_stays_sorted_witness :
    (BlockHistory.insert [⟨1, 5⟩, ⟨2, 9⟩] ⟨3, 7⟩).Pairwise
      (fun x y => x.timestamp ≤ y.timestamp)
    ∧ (BlockHistory.update [⟨1, 5⟩, ⟨2, 9⟩] [⟨3, 7⟩, ⟨4, 2⟩] 8 10).Pairwise
      (fun x y => x.timestamp ≤ y.timestamp) :=
  ⟨C10_cache_stays_sorted.1 [⟨1, 5⟩, ⟨2, 9⟩] ⟨3, 7⟩ (by decide),
   C10_cache_stays_sorted.2 [⟨1, 5⟩, ⟨2, 9⟩] [⟨3, 7⟩, ⟨4, 2⟩] 8 10 (by decide)⟩

/-! ## Claim C2: which fetched blocks update inserts -/

/-- C2 counterexample: with lookback 10 and now 100, a fetched block with
timestamp 110 lies outside the claimed interval from 90 to 100, yet update
inserts it into the cache - the source only checks the lower bound. -/
theorem C2_counterexample :
    BlockHistory.update [] [⟨1, 110⟩] 10 100 = [⟨1, 110⟩] ∧ 100 < 110 := by decide

/-- C2 amended: for every lookback, now and fetched block list, the update
insertion phase adds to the cache exactly the fetched blocks whose timestamp
is at least now - lookback; fetched blocks below that bound are not
inserted, and no upper bound is enforced. -/
theorem C2_update_filters_by_lookback (blocks fetched : List Block) (lookback now : Nat) :
    (BlockHistory.update blocks fetched lookback now).Perm
      (blocks ++ fetched.filter (fun b => now - lookback ≤ b.timestamp)) :=
  update_perm fetched blocks lookback now

/-! ## Claim C1: TWAP of a single covering sample, and zero overlap -/

/-- C1 counterexample: a single sample at timestamp 0 with price 5 whose
validity window covers the whole query range from 0 to 10, with carry-in
sum 0.  The claim says the result is exactly 5, but the JS truthiness guard
treats the previous timestamp 0 as falsy, so nothing accumulates and the
source returns null. -/
theorem C1_counterexample :
    computeTWAP [(0, some 5)] 0 10 0 = none ∧ computeTWAP [(0, some 5)] 0 10 0 ≠ some 5 := by
  decide

/-- C1 amended: over a single sample with a positive timestamp whose
validity window covers the whole query range (sample at or before the start
of a non-empty range that ends inside the representable span), computeTWAP
with carry-in sum zero returns exactly the sample price; and whenever the
first event already starts after the end of the range, it returns null. -/
theorem C1_twap_single_sample_and_zero_overlap :
    (∀ (t0 : Nat) (p : Int) (s e : Nat),
      1 ≤ t0 → t0 ≤ s → s < e → e < MAX_SAFE_JS_INT →
      computeTWAP [(t0, some p)] s e 0 = some p)
    ∧ (∀ (t : Nat) (pr : Option Int) (rest : List TwapEvent) (s e : Nat) (sum : Int),
      e < t → computeTWAP ((t, pr) :: rest) s e sum = none) := by
  constructor
  · intro t0 p s e h1 h2 h3 h4
    have hnot1 : ¬ (e < t0) := by omega
    have ht0 : t0 ≠ 0 := by omega
    simp only [computeTWAP, computeTWAPFull, List.cons_append, List.nil_append, twapLoop]
    simp only [if_neg hnot1, if_pos ht0, if_pos h4]
    have hmin : MAX_SAFE_JS_INT ⊓ e = e := by omega
    have hmax : t0 ⊔ s = s := by omega
    rw [hmin, hmax]
    have hne : e - s ≠ 0 := by omega
    simp only [Nat.zero_add, Int.zero_add, zero_add]
    rw [if_neg hne]
    have hcast : ((e - s : Nat) : Int) ≠ 0 := by exact_mod_cast hne
    rw [Int.mul_tdiv_cancel p hcast]
  · intro t pr rest s e sum he
    simp only [computeTWAP, computeTWAPFull, List.cons_append, twapLoop]
    simp only [if_pos he]
    simp

/-- Witness for C1 at a concrete covering sample. -/
theorem C1_twap_witness :
    computeTWAP [(2, some 7)] 3 13 0 = some 7 ∧ computeTWAP [(20, some 7)] 5 15 0 = none :=
  ⟨C1_twap_single_sample_and_zero_overlap.1 2 7 3 13 (by decide) (by decide) (by decide)
    (by decide),
   C1_twap_single_sample_and_zero_overlap.2 20 (some 7) [] 5 15 0 (by decide)⟩

/-! ## Claim C9: computeTWAP and the caller-supplied events array -/

/-- C9 counterexample: computeTWAP does not leave the caller-supplied
events array unchanged - calling it on an empty array leaves the sentinel
event behind, because the source pushes the sentinel onto the array it was
given. -/
theorem C9_counterexample :
    computeTWAPEvents [] 0 10 0 = [(MAX_SAFE_JS_INT, none)] ∧
    computeTWAPEvents [] 0 10 0 ≠ [] := by decide

/-- C9 amended: the only effect of computeTWAP on caller-visible state is
that it appends exactly one far-future sentinel event to the caller-supplied
events array; the rest of the computation is a pure function of the
arguments. -/
theorem C9_twap_appends_sentinel (events : List TwapEvent) (s e : Nat) (sum : Int) :
    computeTWAPEvents events s e sum = events ++ [(MAX_SAFE_JS_INT, none)] := rfl

/-! ## Claim C5: termination of the interpolation search -/

/-- BlockFinder getBlock always hands back a block carrying the requested
number, cached or fetched. -/
theorem getBlock_number (env : FinderEnv) (blocks : List Block) (n : Nat) :
    (BlockFinder.getBlock env blocks n).2.number = n := by
  unfold BlockFinder.getBlock
  cases h : blocks[lodashSortedIndex (blocks.map Block.number) n 0 blocks.length]? with
  | none => simp [h]
  | some b =>
    by_cases hb : b.number = n
    · simp [h, hb]
    · simp [h, hb]

/-- The lodash clamp lands inside any non-empty interval. -/
theorem lodashClamp_mem (est lo hi : Int) (h : lo ≤ hi) :
    lo ≤ lodashClamp est lo hi ∧ lodashClamp est lo hi ≤ hi := by
  unfold lodashClamp
  omega

/-- Termination of findBlock: a fuel of the bracket width is always enough,
because the probed block number is clamped strictly inside the bracket, so
every recursive call shrinks the bracket by at least one block. -/
theorem findBlock_term_aux (env : FinderEnv) (ts : Nat) :
    ∀ (fuel : Nat) (blocks : List Block) (s e : Block),
      s.number < e.number → e.number - s.number ≤ fuel →
      BlockFinder.findBlock env fuel blocks (some s) e ts ≠ .outOfFuel := by
  intro fuel
  induction fuel with
  | zero => intro blocks s e h1 h2; omega
  | succ fuel ih =>
    intro blocks s e h1 h2
    rw [BlockFinder.findBlock]
    by_cases hts : e.timestamp = ts
    · simp only [if_pos hts]
      exact fun hcontra => FBResult.noConfusion hcontra
    simp only [if_neg hts]
    by_cases hadj : e.number = s.number + 1
    · simp only [if_pos hadj]
      exact fun hcontra => FBResult.noConfusion hcontra
    simp only [if_neg hadj]
    by_cases heq : e.number = s.number
    · simp only [if_pos heq]
      exact fun hcontra => FBResult.noConfusion hcontra
    simp only [if_neg heq]
    by_cases hrange : ¬ (s.timestamp < ts ∧ ts < e.timestamp)
    · simp only [if_pos hrange]
      exact fun hcontra => FBResult.noConfusion hcontra
    simp only [if_neg hrange]
    have hwide : s.number + 2 ≤ e.number := by omega
    have hclamp := lodashClamp_mem (env.estimator s e ts)
      ((s.number : Int) + 1) ((e.number : Int) - 1) (by omega)
    set c := (lodashClamp (env.estimator s e ts) ((s.number : Int) + 1)
      ((e.number : Int) - 1)).toNat with hc
    have hlo : s.number + 1 ≤ c := by omega
    have hhi : c ≤ e.number - 1 := by omega
    have hnum := getBlock_number env blocks c
    set fetched := BlockFinder.getBlock env blocks c with hfetched
    by_cases hlt : fetched.2.timestamp < ts
    · simp only [if_pos hlt]
      exact ih fetched.1 fetched.2 e (by omega) (by omega)
    · simp only [if_neg hlt]
      exact ih fetched.1 s fetched.2 (by omega) (by omega)

/-- C5: for every bracketing pair of distinct blocks, findBlock terminates
within a fuel of the bracket width; an adjacent bracket whose end does not
match the timestamp returns the start block immediately; and for every
estimate the clamp keeps the probed number strictly inside the bracket. -/
theorem C5_findBlock_terminates :
    (∀ (env : FinderEnv) (ts fuel : Nat) (blocks : List Block) (s e : Block),
      s.number < e.number → e.number - s.number ≤ fuel →
      BlockFinder.findBlock env fuel blocks (some s) e ts ≠ .outOfFuel)
    ∧ (∀ (env : FinderEnv) (ts fuel : Nat) (blocks : List Block) (s e : Block),
      e.number = s.number + 1 → e.timestamp ≠ ts →
      BlockFinder.findBlock env (fuel + 1) blocks (some s) e ts = .ok s)
    ∧ (∀ (est : Int) (s e : Block), s.number + 2 ≤ e.number →
      (s.number : Int) + 1 ≤ lodashClamp est ((s.number : Int) + 1) ((e.number : Int) - 1)
      ∧ lodashClamp est ((s.number : Int) + 1) ((e.number : Int) - 1) ≤ (e.number : Int) - 1) := by
  refine ⟨fun env ts fuel blocks s e h1 h2 => findBlock_term_aux env ts fuel blocks s e h1 h2,
    ?_, ?_⟩
  · intro env ts fuel blocks s e hadj hts
    rw [BlockFinder.findBlock]
    simp only [if_neg hts, if_pos hadj]
  · intro est s e hwide
    exact lodashClamp_mem est ((s.number : Int) + 1) ((e.number : Int) - 1) (by omega)

/-- Witness for C5 at a concrete bracket. -/
theorem C5_findBlock_terminates_witness :
    BlockFinder.findBlock ⟨fun n => n, 0, fun _ => 0, fun _ _ _ => 0⟩ 10 [] (some ⟨0, 0⟩)
      ⟨10, 10⟩ 5 ≠ .outOfFuel :=
  C5_findBlock_terminates.1 ⟨fun n => n, 0, fun _ => 0, fun _ _ _ => 0⟩ 5 10 [] ⟨0, 0⟩ ⟨10, 10⟩
    (by decide) (by decide)

/-! ## Claim C4: round trip through getBlockForTimestamp -/

/-- On a cache with strictly increasing timestamps, the final
interpolation step at the exact timestamp of the cached block b ends the
query at b: the lodash index points at b and findBlock returns its end
block immediately on the timestamp equality check. -/
theorem finalStep_exact (env : FinderEnv) (fuel : Nat) (blocks : List Block) (b : Block)
    (hmem : b ∈ blocks) (hsorted : (blocks.map Block.timestamp).Pairwise (· < ·)) :
    BlockFinder.finalStep env (fuel + 1) blocks b.timestamp = .ok b := by
  obtain ⟨k, hk, hbk⟩ := List.mem_iff_getElem.mp hmem
  have hle : (blocks.map Block.timestamp).Pairwise (· ≤ ·) :=
    hsorted.imp (fun h => Nat.le_of_lt h)
  have hlenm : (blocks.map Block.timestamp).length = blocks.length := List.length_map _ _
  have harr : ∀ j, (hj : j < blocks.length) →
      (blocks.map Block.timestamp).getD j 0 = (blocks[j]).timestamp := by
    intro j hj
    rw [List.getD_eq_getElem (blocks.map Block.timestamp) 0 (by omega), List.getElem_map]
  obtain ⟨hlt2, hlt, hge⟩ := sortedIndex_bracket (blocks.map Block.timestamp) b.timestamp hle
  rw [hlenm] at hlt2 hlt hge
  set i := lodashSortedIndex (blocks.map Block.timestamp) b.timestamp 0 blocks.length with hi
  have hki : i ≤ k := by
    by_contra hcon
    have := hlt k (by omega)
    rw [harr k hk, hbk] at this
    omega
  have hilen : i < blocks.length := by omega
  have hieq : (blocks[i]).timestamp = b.timestamp := by
    have h1 := hge i (Nat.le_refl i) hilen
    rw [harr i hilen] at h1
    have h2 : (blocks[i]).timestamp ≤ (blocks[k]).timestamp := by
      have := pairwise_getD_mono (blocks.map Block.timestamp) hle hki (by omega)
      rw [harr i hilen, harr k hk] at this
      exact this
    rw [hbk] at h2
    omega
  have hik : i = k := by
    by_contra hcon
    have hik2 : i < k := by omega
    have := List.pairwise_iff_getElem.mp hsorted i k (by omega) (by omega) hik2
    rw [List.getElem_map, List.getElem_map] at this
    rw [hbk] at this
    omega
  have hgetb : blocks.get? i = some b := by
    rw [List.get?_eq_getElem?, hik, List.getElem?_eq_getElem hk, hbk]
  simp only [BlockFinder.finalStep, ← hi, hgetb]
  simp [BlockFinder.findBlock]

/-- C4 counterexample: a cache holding two distinct blocks with the same
timestamp 100 (numbers 5 and 6).  Querying the exact timestamp of the
cached block number 6 returns the cached block number 5, not the block
itself, because the binary search lands on the first entry carrying that
timestamp. -/
theorem C4_counterexample :
    (⟨6, 100⟩ : Block) ∈ [(⟨5, 100⟩ : Block), ⟨6, 100⟩] ∧
    BlockFinder.getBlockForTimestamp ⟨fun n => n, 0, fun _ => 0, fun _ _ _ => 0⟩ 1
      [⟨5, 100⟩, ⟨6, 100⟩] 100 = .ok ⟨5, 100⟩ ∧
    FBResult.ok (⟨5, 100⟩ : Block) ≠ .ok ⟨6, 100⟩ := by decide

/-- C4 amended: on a cache whose timestamps are strictly increasing (so no
two cached blocks share a timestamp), querying getBlockForTimestamp with
exactly the timestamp of a cached block b returns b itself, including when
b is the earliest cached block; with duplicate timestamps the query returns
the first cached block carrying that timestamp instead. -/
theorem C4_round_trip (env : FinderEnv) (fuel : Nat) (blocks : List Block) (b : Block)
    (hmem : b ∈ blocks) (hsorted : (blocks.map Block.timestamp).Pairwise (· < ·)) :
    BlockFinder.getBlockForTimestamp env (fuel + 1) blocks b.timestamp = .ok b := by
  obtain ⟨k, hk, hbk⟩ := List.mem_iff_getElem.mp hmem
  have hnil : blocks ≠ [] := List.ne_nil_of_mem hmem
  have hempty : blocks.isEmpty = false := by
    cases blocks with
    | nil => exact absurd rfl hnil
    | cons x xs => rfl
  have hle : (blocks.map Block.timestamp).Pairwise (· ≤ ·) :=
    hsorted.imp (fun h => Nat.le_of_lt h)
  have hlast : (blocks.getLast?.map Block.timestamp).any (fun t => t < b.timestamp) = false := by
    rw [List.getLast?_eq_getElem?]
    have hpos : blocks.length - 1 < blocks.length := by
      cases blocks with
      | nil => exact absurd rfl hnil
      | cons x xs => simp
    rw [List.getElem?_eq_getElem hpos]
    simp only [Option.map_some', Option.any_some, decide_eq_false_iff_not, Nat.not_lt]
    have := pairwise_getD_mono (blocks.map Block.timestamp) hle
      (i := k) (j := blocks.length - 1) (by omega) (by rw [List.length_map]; omega)
    rw [List.getD_eq_getElem _ 0 (by rw [List.length_map]; omega),
      List.getD_eq_getElem _ 0 (by rw [List.length_map]; omega),
      List.getElem_map, List.getElem_map, hbk] at this
    exact this
  have hhead : ∀ (hpos : 0 < blocks.length), (blocks[0]).timestamp ≤ b.timestamp := by
    intro hpos
    have := pairwise_getD_mono (blocks.map Block.timestamp) hle
      (i := 0) (j := k) (by omega) (by rw [List.length_map]; omega)
    rw [List.getD_eq_getElem _ 0 (by rw [List.length_map]; omega),
      List.getD_eq_getElem _ 0 (by rw [List.length_map]; omega),
      List.getElem_map, List.getElem_map, hbk] at this
    exact this
  have hfinal := finalStep_exact env fuel blocks b hmem hsorted
  unfold BlockFinder.getBlockForTimestamp
  rw [hempty, hlast]
  simp only [Bool.false_eq_true, or_self, if_false]
  cases blocks with
  | nil => exact absurd rfl hnil
  | cons b0 rest =>
    have hb0 : ¬ (b.timestamp < b0.timestamp) := by
      have := hhead (by simp)
      simp only [List.getElem_cons_zero] at this
      omega
    simp only [if_neg hb0]
    exact hfinal

/-- Witness for C4 at a concrete cache. -/
theorem C4_round_trip_witness :
    BlockFinder.getBlockForTimestamp ⟨fun n => n, 0, fun _ => 0, fun _ _ _ => 0⟩ 1
      [⟨1, 5⟩, ⟨2, 9⟩, ⟨7, 20⟩] 9 = .ok ⟨2, 9⟩ :=
  C4_round_trip ⟨fun n => n, 0, fun _ => 0, fun _ _ _ => 0⟩ 0
    [⟨1, 5⟩, ⟨2, 9⟩, ⟨7, 20⟩] ⟨2, 9⟩ (by decide) (by decide)

/-! ## Claim C3: the backward search before the earliest cached block -/

/-- On a cache agreeing with the ledger, getBlock hands back the true chain
block for the requested number and keeps the cache agreeing with the
ledger. -/
theorem getBlock_consistent (env : FinderEnv) (blocks : List Block) (n : Nat)
    (hcons : ∀ b ∈ blocks, b.timestamp = env.chainTs b.number) :
    (BlockFinder.getBlock env blocks n).2 = ⟨n, env.chainTs n⟩
    ∧ ∀ b ∈ (BlockFinder.getBlock env blocks n).1, b.timestamp = env.chainTs b.number := by
  unfold BlockFinder.getBlock
  cases h : blocks[lodashSortedIndex (blocks.map Block.number) n 0 blocks.length]? with
  | none =>
    simp only [List.get?_eq_getElem?, h]
    refine ⟨trivial, ?_⟩
    intro b hb
    rcases List.mem_append.mp hb with hb1 | hb2
    · exact hcons b (List.take_subset _ _ hb1)
    · rcases List.mem_cons.mp hb2 with rfl | hb3
      · rfl
      · exact hcons b (List.drop_subset _ _ hb3)
  | some bc =>
    simp only [List.get?_eq_getElem?, h]
    by_cases hb : bc.number = n
    · rw [if_pos hb]
      have hmem : bc ∈ blocks := List.getElem?_mem h
      have hts := hcons bc hmem
      refine ⟨?_, hcons⟩
      cases bc with
      | mk num tsv =>
        simp only at hb hts
        subst hb
        rw [hts]
    · rw [if_neg hb]
      refine ⟨rfl, ?_⟩
      intro b hbm
      rcases List.mem_append.mp hbm with hb1 | hb2
      · exact hcons b (List.take_subset _ _ hb1)
      · rcases List.mem_cons.mp hb2 with rfl | hb3
        · rfl
        · exact hcons b (List.drop_subset _ _ hb3)

/-- The probe numbers of the backward search grow by a constant increment:
the k-th probe (counting multipliers from the starting one) is at block
number initialNumber - k * inc, with the truncated subtraction bounding the
probe below at block 0. -/
theorem backwardLoop_probes (env : FinderEnv) (init inc ts : Nat) :
    ∀ (fuel m0 : Nat) (blocks : List Block),
      (BlockFinder.backwardLoop env init inc ts fuel m0 blocks).probes
        = (List.range' m0
            (BlockFinder.backwardLoop env init inc ts fuel m0 blocks).probes.length).map
            (fun k => init - k * inc) := by
  intro fuel
  induction fuel with
  | zero => intro m0 blocks; simp [BlockFinder.backwardLoop, BlockFinder.BWOut.probes]
  | succ fuel ih =>
    intro m0 blocks
    rw [BlockFinder.backwardLoop]
    by_cases h1 : (BlockFinder.getBlock env blocks (init - m0 * inc)).2.timestamp ≤ ts
    · simp [if_pos h1, BlockFinder.BWOut.probes]
    simp only [if_neg h1]
    by_cases h2 : init - m0 * inc = 0
    · simp [if_pos h2, BlockFinder.BWOut.probes, h2]
    simp only [if_neg h2]
    cases hbl : BlockFinder.backwardLoop env init inc ts fuel (m0 + 1)
        (BlockFinder.getBlock env blocks (init - m0 * inc)).1 with
    | ok bs probes =>
      have := ih (m0 + 1) (BlockFinder.getBlock env blocks (init - m0 * inc)).1
      rw [hbl] at this
      simp only [BlockFinder.BWOut.probes] at this ⊢
      simp only [List.length_cons, List.range'_succ, List.map_cons]
      rw [← this]
    | genesisFail probes =>
      have := ih (m0 + 1) (BlockFinder.getBlock env blocks (init - m0 * inc)).1
      rw [hbl] at this
      simp only [BlockFinder.BWOut.probes] at this ⊢
      simp only [List.length_cons, List.range'_succ, List.map_cons]
      rw [← this]
    | outOfFuel probes =>
      have := ih (m0 + 1) (BlockFinder.getBlock env blocks (init - m0 * inc)).1
      rw [hbl] at this
      simp only [BlockFinder.BWOut.probes] at this ⊢
      simp only [List.length_cons, List.range'_succ, List.map_cons]
      rw [← this]

/-- When the queried timestamp predates the genesis timestamp of a
non-decreasing ledger, the backward search never finds an early enough
block: it walks down to block 0 and fails the assert. -/
theorem backwardLoop_genesisFail (env : FinderEnv) (init inc ts : Nat)
    (hmono : ∀ i j, i ≤ j → env.chainTs i ≤ env.chainTs j)
    (hgen : ts < env.chainTs 0) :
    ∀ (fuel m0 : Nat) (blocks : List Block),
      (∀ b ∈ blocks, b.timestamp = env.chainTs b.number) →
      1 ≤ inc → 1 ≤ fuel → init ≤ (m0 + fuel - 1) * inc →
      ∃ probes, BlockFinder.backwardLoop env init inc ts fuel m0 blocks = .genesisFail probes := by
  intro fuel
  induction fuel with
  | zero => intro m0 blocks _ _ hf; omega
  | succ fuel ih =>
    intro m0 blocks hcons hinc _hf hbound
    obtain ⟨hfetch, hcons2⟩ := getBlock_consistent env blocks (init - m0 * inc) hcons
    rw [BlockFinder.backwardLoop]
    have hnotfound : ¬ ((BlockFinder.getBlock env blocks (init - m0 * inc)).2.timestamp ≤ ts) := by
      rw [hfetch]
      show ¬ (env.chainTs (init - m0 * inc) ≤ ts)
      have := hmono 0 (init - m0 * inc) (Nat.zero_le _)
      omega
    simp only [if_neg hnotfound]
    by_cases h2 : init - m0 * inc = 0
    · simp only [if_pos h2]
      exact ⟨_, rfl⟩
    simp only [if_neg h2]
    have heq : m0 + (fuel + 1) - 1 = m0 + fuel := by omega
    rw [heq] at hbound
    have hfuel1 : 1 ≤ fuel := by
      rcases Nat.eq_zero_or_pos fuel with hf0 | hfpos
      · subst hf0
        exfalso
        simp only [Nat.add_zero] at hbound
        omega
      · exact hfpos
    have heq2 : m0 + 1 + fuel - 1 = m0 + fuel := by omega
    obtain ⟨probes, hpr⟩ := ih (m0 + 1)
      (BlockFinder.getBlock env blocks (init - m0 * inc)).1 hcons2 hinc hfuel1
      (by rw [heq2]; exact hbound)
    rw [hpr]
    exact ⟨_, rfl⟩

/-- C3 counterexample: with the earliest cached block at number 100, an
increment estimate of 10 and a ledger whose block n has timestamp n,
querying timestamp 75 makes the source probe blocks 90, 80, 70 - the
distance grows by a constant increment per miss.  Doubling the search
distance on each miss, as the claim states, would instead probe
90, 80, 60. -/
theorem C3_counterexample :
    (BlockFinder.backwardLoop ⟨fun n => n, 0, fun _ => 0, fun _ _ _ => 0⟩
      100 10 75 10 1 []).probes = [90, 80, 70]
    ∧ BlockFinder.doublingProbes 100 75 (fun n => n) 10 10 = [90, 80, 60]
    ∧ ([90, 80, 70] : List Nat) ≠ [90, 80, 60] := by decide

/-- C3 amended: for every query timestamp preceding every cached block of a
ledger-consistent cache, getBlockForTimestamp searches backward from the
earliest cached block with probe numbers decreasing by a constant increment
per miss (the k-th probe sits at initialNumber - k * increment, the
truncated subtraction bounding it below at block 0), not by doubling; and
when the timestamp predates the timestamp of block 0 of a non-decreasing
ledger the query fails the assert. -/
theorem C3_backward_search (env : FinderEnv) (fuel : Nat) (b0 : Block) (rest : List Block)
    (ts : Nat)
    (hcons : ∀ b ∈ b0 :: rest, b.timestamp = env.chainTs b.number)
    (hmono : ∀ i j, i ≤ j → env.chainTs i ≤ env.chainTs j)
    (hts : ∀ b ∈ b0 :: rest, ts < b.timestamp)
    (hgen : ts < env.chainTs 0)
    (hfuel : b0.number + 1 ≤ fuel) :
    BlockFinder.getBlockForTimestamp env fuel (b0 :: rest) ts = .assertFail
    ∧ ∀ (fuel2 m0 init inc : Nat) (blocks2 : List Block),
        (BlockFinder.backwardLoop env init inc ts fuel2 m0 blocks2).probes
          = (List.range' m0
              (BlockFinder.backwardLoop env init inc ts fuel2 m0 blocks2).probes.length).map
              (fun k => init - k * inc) := by
  refine ⟨?_, fun fuel2 m0 init inc blocks2 => backwardLoop_probes env init inc ts fuel2 m0 blocks2⟩
  have hempty : (b0 :: rest).isEmpty = false := rfl
  have hpos : (b0 :: rest).length - 1 < (b0 :: rest).length := by simp
  have hlast : ((b0 :: rest).getLast?.map Block.timestamp).any (fun t => t < ts) = false := by
    rw [List.getLast?_eq_getElem?, List.getElem?_eq_getElem hpos]
    simp only [Option.map_some', Option.any_some, decide_eq_false_iff_not, Nat.not_lt]
    exact Nat.le_of_lt (hts _ (List.getElem_mem hpos))
  unfold BlockFinder.getBlockForTimestamp
  rw [hempty, hlast]
  simp only [Bool.false_eq_true, or_self, if_false]
  have hb0 : ts < b0.timestamp := hts b0 (List.mem_cons_self b0 rest)
  simp only [if_pos hb0]
  have hinc : 1 ≤ max (env.estimateInc (b0.timestamp - ts)) 1 := Nat.le_max_right _ 1
  obtain ⟨probes, hbl⟩ := backwardLoop_genesisFail env b0.number
    (max (env.estimateInc (b0.timestamp - ts)) 1) ts hmono hgen fuel 1 (b0 :: rest) hcons hinc
    (by omega)
    (by
      have : fuel ≤ fuel * max (env.estimateInc (b0.timestamp - ts)) 1 :=
        Nat.le_mul_of_pos_right fuel hinc
      have h1 : (1 + fuel - 1) = fuel := by omega
      rw [h1]
      omega)
  rw [hbl]

/-- Witness for C3 at a concrete ledger whose block n has timestamp
n + 50, with a single cached block and a query predating genesis. -/
theorem C3_backward_search_witness :
    BlockFinder.getBlockForTimestamp ⟨fun n => n + 50, 0, fun _ => 0, fun _ _ _ => 0⟩ 4
      [⟨3, 53⟩] 40 = .assertFail :=
  (C3_backward_search ⟨fun n => n + 50, 0, fun _ => 0, fun _ _ _ => 0⟩ 4 ⟨3, 53⟩ [] 40
    (by decide) (fun i j h => Nat.add_le_add_right h 50) (by decide) (by decide) (by decide)).1

/-! ## Claims C6 and C7: the retrying scheduler -/

/-- A body that throws on every attempt is attempted once per unit of
remaining retry budget plus once, and the thrown error is the final
outcome, with the doubling node-retry backoff slept between consecutive
attempts. -/
theorem asyncRetryGo_allFail (body : Nat → JsOutcome) (delayMs : Nat)
    (hbody : ∀ j, ∃ e, body j = .thrown e) :
    ∀ (remaining attemptIdx : Nat),
      ∃ e, asyncRetryGo body delayMs remaining attemptIdx =
        ⟨.thrown e, attemptIdx + remaining + 1,
          (List.range (attemptIdx + remaining)).map (fun k => delayMs * 2 ^ k)⟩ := by
  intro remaining
  induction remaining with
  | zero =>
    intro attemptIdx
    obtain ⟨e, he⟩ := hbody attemptIdx
    exact ⟨e, by simp [asyncRetryGo, he]⟩
  | succ remaining ih =>
    intro attemptIdx
    obtain ⟨e, he⟩ := hbody attemptIdx
    obtain ⟨e2, he2⟩ := ih (attemptIdx + 1)
    refine ⟨e2, ?_⟩
    rw [asyncRetryGo, he, he2]
    have h1 : attemptIdx + 1 + remaining = attemptIdx + (remaining + 1) := by omega
    rw [h1]

/-- C6 counterexample: with two retries and a minTimeout of 1000 ms, the
sleeps between the three attempts are 1000 ms and then 2000 ms.  The retry
call site leaves the node-retry factor option at its default of 2, so the
delay doubles on each retry instead of staying fixed. -/
theorem C6_counterexample :
    (asyncRetry (fun _ => .thrown 9) 2 1000).delays = [1000, 2000]
    ∧ (asyncRetry (fun _ => .thrown 9) 2 1000).delays ≠ List.replicate 2 1000 := by decide

/-- C6 amended: a polling cycle whose body always throws is attempted
exactly retries + 1 times (one initial attempt plus retries retries); the
delay slept before the k-th retry is minTimeout * 2 ^ (k - 1) - the
node-retry doubling backoff, not a fixed delay - and the error then
escalates out of the execution loop and the process exits with status 1. -/
theorem C6_retry_bound (cycles : Nat → Nat → JsOutcome) (retries delayMs pollingDelay fuel : Nat)
    (hbody : ∀ j, ∃ e, cycles 0 j = .thrown e) :
    (runLoop cycles retries delayMs pollingDelay (fuel + 1) 0).attemptsPerCycle = [retries + 1]
    ∧ (runLoop cycles retries delayMs pollingDelay (fuel + 1) 0).cyclesStarted = 1
    ∧ (asyncRetry (cycles 0) retries delayMs).delays =
        (List.range retries).map (fun k => delayMs * 2 ^ k)
    ∧ (∃ e, (runLoop cycles retries delayMs pollingDelay (fuel + 1) 0).outcome =
        some (.thrown e))
    ∧ (runLoop cycles retries delayMs pollingDelay (fuel + 1) 0).outcome.map nodeCallbackExit =
        some 1 := by
  obtain ⟨e, he⟩ := asyncRetryGo_allFail (cycles 0) delayMs hbody retries 0
  have hretry : asyncRetry (cycles 0) retries delayMs =
      ⟨.thrown e, retries + 1, (List.range retries).map (fun k => delayMs * 2 ^ k)⟩ := by
    unfold asyncRetry
    rw [he]
    have h1 : 0 + retries = retries := by omega
    rw [h1]
  rw [runLoop, hretry]
  exact ⟨rfl, rfl, rfl, ⟨e, rfl⟩, rfl⟩

/-- Witness for C6: two retries, a body that always throws error 9. -/
theorem C6_retry_bound_witness :
    (runLoop (fun _ _ => .thrown 9) 2 1 60 (3 + 1) 0).attemptsPerCycle = [2 + 1]
    ∧ (runLoop (fun _ _ => .thrown 9) 2 1 60 (3 + 1) 0).cyclesStarted = 1
    ∧ (asyncRetry ((fun _ _ => JsOutcome.thrown 9) 0) 2 1).delays =
        (List.range 2).map (fun k => 1 * 2 ^ k)
    ∧ (∃ e, (runLoop (fun _ _ => .thrown 9) 2 1 60 (3 + 1) 0).outcome = some (.thrown e))
    ∧ (runLoop (fun _ _ => .thrown 9) 2 1 60 (3 + 1) 0).outcome.map nodeCallbackExit = some 1 :=
  C6_retry_bound (fun _ _ => .thrown 9) 2 1 60 3 (fun _ => ⟨9, rfl⟩)

/-- A cycle whose body succeeds at once makes the retry wrapper succeed on
the first attempt. -/
theorem asyncRetry_firstOk (body : Nat → JsOutcome) (retries delayMs : Nat)
    (hok : body 0 = .ok) :
    asyncRetry body retries delayMs = ⟨.ok, 1, []⟩ := by
  unfold asyncRetry
  cases retries with
  | zero => rw [asyncRetryGo, hok]; rfl
  | succ r => rw [asyncRetryGo, hok]; rfl

/-- C7: with pollingDelay 0 and a succeeding cycle, the loop runs exactly
one cycle, waits for pending log delivery, breaks, and the process exits
with status 0; with a non-zero pollingDelay and succeeding cycles the loop
never breaks on its own - after any number of observed iterations it has
run that many cycles, slept the polling delay after each, and is still
running. -/
theorem C7_single_shot_and_loop (cycles : Nat → Nat → JsOutcome) (retries delayMs : Nat) :
    (∀ fuel : Nat, cycles 0 0 = .ok →
      runLoop cycles retries delayMs 0 (fuel + 1) 0 = ⟨1, [1], [], true, some .ok⟩
      ∧ (runLoop cycles retries delayMs 0 (fuel + 1) 0).outcome.map nodeCallbackExit = some 0)
    ∧ (∀ (pollingDelay : Nat) (fuel start : Nat), pollingDelay ≠ 0 →
      (∀ i, cycles i 0 = .ok) →
      runLoop cycles retries delayMs pollingDelay fuel start =
        ⟨fuel, List.replicate fuel 1, List.replicate fuel pollingDelay, false, none⟩) := by
  constructor
  · intro fuel hok
    have hretry := asyncRetry_firstOk (cycles 0) retries delayMs hok
    constructor
    · rw [runLoop, hretry]
      rfl
    · rw [runLoop, hretry]
      rfl
  · intro pollingDelay fuel
    induction fuel with
    | zero => intro start _ _; rw [runLoop]; rfl
    | succ fuel ih =>
      intro start hpd hok
      have hretry := asyncRetry_firstOk (cycles start) retries delayMs (hok start)
      rw [runLoop, hretry]
      simp only [if_neg hpd]
      rw [ih (start + 1) hpd hok]
      rfl

/-- Witness for C7 in both modes. -/
theorem C7_single_shot_and_loop_witness :
    (runLoop (fun _ _ => .ok) 3 1 0 (0 + 1) 0 = ⟨1, [1], [], true, some .ok⟩
      ∧ (runLoop (fun _ _ => .ok) 3 1 0 (0 + 1) 0).outcome.map nodeCallbackExit = some 0)
    ∧ runLoop (fun _ _ => .ok) 3 1 60 5 0 =
        ⟨5, List.replicate 5 1, List.replicate 5 60, false, none⟩ :=
  ⟨(C7_single_shot_and_loop (fun _ _ => .ok) 3 1).1 0 rfl,
   (C7_single_shot_and_loop (fun _ _ => .ok) 3 1).2 60 5 0 (by decide) (fun _ => rfl)⟩

/-! ## Claim C8: price-unavailable targets are skipped in isolation -/

/-- C8: whenever the historical price lookup for a target fails, the
proposer and disputer skip exactly that target for the cycle after logging
it: no transaction is submitted for it, the per-target handler returns
normally (the cycle is not aborted), and the submitted transactions of the
whole sweep are the same as if the failing target were absent, with every
other target handled identically. -/
theorem C8_price_unavailable_skips (env : ProposerEnv) (r : PriceRequest)
    (hig : env.ignored r = false)
    (hfeed : env.feedExists r.identifier = true)
    (hprice : env.histPrice r.identifier r.timestamp = none) :
    sendProposalOne env r = .skippedNoPrice
    ∧ sendDisputeOne env r = .skippedNoPrice
    ∧ (∀ l1 l2 : List PriceRequest,
        sendProposals env (l1 ++ r :: l2) =
          sendProposals env l1 ++ (r, .skippedNoPrice) :: sendProposals env l2)
    ∧ (∀ l1 l2 : List PriceRequest,
        sentTxs (sendProposals env (l1 ++ r :: l2)) = sentTxs (sendProposals env (l1 ++ l2)))
    ∧ (∀ l1 l2 : List PriceRequest,
        sendDisputes env (l1 ++ r :: l2) =
          sendDisputes env l1 ++ (r, .skippedNoPrice) :: sendDisputes env l2)
    ∧ (∀ l1 l2 : List PriceRequest,
        sentTxs (sendDisputes env (l1 ++ r :: l2)) = sentTxs (sendDisputes env (l1 ++ l2))) := by
  have hp : sendProposalOne env r = .skippedNoPrice := by
    unfold sendProposalOne
    rw [hfeed]
    simp only [Bool.true_eq_false, if_false, hprice]
  have hd : sendDisputeOne env r = .skippedNoPrice := by
    unfold sendDisputeOne
    rw [hfeed]
    simp only [Bool.true_eq_false, if_false, hprice]
  have htag : ((r : PriceRequest),
      if env.ignored r = true then TargetAction.skippedIgnored else sendProposalOne env r) =
      (r, TargetAction.skippedNoPrice) := by
    simp only [hig, Bool.false_eq_true, if_false, hp]
  have htagd : ((r : PriceRequest),
      if env.ignored r = true then TargetAction.skippedIgnored else sendDisputeOne env r) =
      (r, TargetAction.skippedNoPrice) := by
    simp only [hig, Bool.false_eq_true, if_false, hd]
  refine ⟨hp, hd, ?_, ?_, ?_, ?_⟩
  · intro l1 l2
    unfold sendProposals
    rw [List.map_append, List.map_cons, htag]
  · intro l1 l2
    unfold sendProposals
    rw [List.map_append, List.map_cons, htag, List.map_append]
    unfold sentTxs
    rw [List.filterMap_append, List.filterMap_cons, List.filterMap_append]
  · intro l1 l2
    unfold sendDisputes
    rw [List.map_append, List.map_cons, htagd]
  · intro l1 l2
    unfold sendDisputes
    rw [List.map_append, List.map_cons, htagd, List.map_append]
    unfold sentTxs
    rw [List.filterMap_append, List.filterMap_cons, List.filterMap_append]

/-- Witness for C8 at a concrete environment in which the historical price
for identifier 1 is unavailable but identifier 2 resolves to price 3. -/
theorem C8_price_unavailable_skips_witness :
    sendProposalOne
      ⟨fun _ => true, fun i _ => if i = 2 then some 3 else none, fun _ => false,
        fun _ => true, fun _ _ => true⟩ ⟨1, 7, 0⟩ = .skippedNoPrice :=
  (C8_price_unavailable_skips
    ⟨fun _ => true, fun i _ => if i = 2 then some 3 else none, fun _ => false,
      fun _ => true, fun _ _ => true⟩ ⟨1, 7, 0⟩ rfl rfl (by decide)).1

end Protocol
